import Mathlib

/-!
A shallow embedding of the asset-access core of the `assetman` repository
(`src/core/src/lib.rs`), together with theorems settling the frozen claims
about its specification.

Modelling conventions:
* Rust `String` contents are modelled as their character lists (`List Char`);
  Rust byte indices become character indices, which is faithful here because
  every operation of the source works one character at a time.
* The external `renege` invalidation capability (Condition / Token) is
  modelled from the spec: a `Token` is the multiset of Conditions it was
  minted from, combining is concatenation (logical AND), and a Token is valid
  while none of its source Conditions has been invalidated (dropped).
* Stateful code (the per-root Condition cache guarded by a mutex, the
  `Tracker` cell) becomes explicit state passing on `RootState` and `Token`.
* Filesystem IO is a parameter: `fsOpen`/`fsDir` say, for each absolute path,
  whether the open/list succeeds or which IO error it produces.
-/

namespace Assetman

/-- Model of the Rust `String` inside `AssetInnerPath` as its character list. -/
abbrev AssetInnerPath := List Char

/-- Index (in characters) of the last occurrence of `c`, Rust `str::rfind`. -/
def rfindIdx (c : Char) : List Char → Option Nat
  | [] => none
  | x :: xs =>
    match rfindIdx c xs with
    | some i => some (i + 1)
    | none => if x = c then some 0 else none

/-- Rust `str::split(sep)`: `n` separators yield `n + 1` (possibly empty)
parts; in particular the empty string yields one empty part. -/
def splitSep (c : Char) : List Char → List (List Char)
  | [] => [[]]
  | x :: xs =>
    match splitSep c xs with
    | [] => [[x]]
    | s :: rest => if x = c then [] :: s :: rest else (x :: s) :: rest

/-- The shared "truncate back to the last `/` separator, or clear" step used
by both the `".."` branch of `AssetInnerPath::relative` (`rfind` +
`truncate` / `clear`) and by `AssetInnerPath::parent`
(`rfind.map(..).unwrap_or(root)`). -/
def truncLastSep (res : List Char) : List Char :=
  match rfindIdx '/' res with
  | some i => res.take i
  | none => []

/-- `AssetInnerPath::root`: the empty string. -/
def AssetInnerPath.root : AssetInnerPath := []

/-- `AssetInnerPath::parent`. -/
def AssetInnerPath.parent (p : AssetInnerPath) : Option AssetInnerPath :=
  if p = [] then none else some (truncLastSep p)

/-- One step of the `for part in path.split('/')` loop of
`AssetInnerPath::relative`, in the source's match order. -/
def relStep (res : AssetInnerPath) (part : List Char) : AssetInnerPath :=
  if part = ['.'] then res
  else if part = ['.', '.'] then truncLastSep res
  else if part = ['~'] then []
  else if res = [] then part
  else res ++ '/' :: part

/-- `AssetInnerPath::relative`: split the spec on `/` and fold the segment
steps over a copy of the current path. -/
def AssetInnerPath.relative (p : AssetInnerPath) (spec : List Char) : AssetInnerPath :=
  (splitSep '/' spec).foldl relStep p

/-- `AssetInnerPath::extension`: the substring strictly after the last `.`
anywhere in the path string, if any. -/
def AssetInnerPath.extension (p : AssetInnerPath) : Option (List Char) :=
  match rfindIdx '.' p with
  | some i => some (p.drop (i + 1))
  | none => none

/-- Model of `AssetPath`: `rootId` models the identity (address) of the
`Arc<AssetRoot>` allocation, `inner` the normalized relative path string.
Distinct allocations of `AssetRoot` get distinct `rootId`s even when the
root contents coincide. -/
structure AssetPath where
  rootId : Nat
  inner : AssetInnerPath
deriving DecidableEq

/-- The `PartialEq` impl for `AssetPath`:
`std::ptr::eq(self.root, other.root) && self.inner == other.inner`. -/
def AssetPath.eqRust (a b : AssetPath) : Bool :=
  (a.rootId == b.rootId) && (a.inner == b.inner)

/-- The `Hash` impl for `AssetPath`: feeds the root pointer
(`std::ptr::hash`) and then the inner string into the hasher; modelled as a
deterministic mixing function of exactly those two fields. -/
def AssetPath.hashRust (a : AssetPath) : Nat :=
  a.inner.foldl (fun h c => h * 1000003 + c.toNat) (a.rootId * 7 + 1)

/-- `AssetPath::parent`: keeps the same root, takes the inner parent. -/
def AssetPath.parent (p : AssetPath) : Option AssetPath :=
  (p.inner.parent).map (fun q => ⟨p.rootId, q⟩)

/-- `AssetPath::relative`: keeps the same root, resolves the inner path. -/
def AssetPath.relative (p : AssetPath) (spec : List Char) : AssetPath :=
  ⟨p.rootId, p.inner.relative spec⟩

/-- `AssetPath::extension`: delegates to the inner path. -/
def AssetPath.extensionOf (p : AssetPath) : Option (List Char) :=
  p.inner.extension

/-- `AssetPath::new_root_fs` at the heap level: the store records, per
allocated `AssetRoot`, its directory contents; a new allocation is appended
and the fresh index is its identity.  The returned path is at the inner
root. -/
def newRootFs (store : List (List Char)) (dir : List Char) :
    List (List Char) × AssetPath :=
  (store ++ [dir], ⟨store.length, AssetInnerPath.root⟩)

/-- Modelled from the spec: a `renege::Token` is determined by the set of
Conditions it was minted from; combining Tokens (`&`, logical AND) takes the
union of their Condition sets, and a Token is valid while none of its source
Conditions has been invalidated. -/
structure Token where
  conds : List Nat
deriving DecidableEq

/-- Modelled from the spec: the permanently-valid Token depends on no
Condition. -/
def Token.always : Token := ⟨[]⟩

/-- Modelled from the spec: `Token & Token`, logical AND of validity. -/
def Token.and (a b : Token) : Token := ⟨a.conds ++ b.conds⟩

/-- Modelled from the spec: a Token is valid in a state whose set of
invalidated (dropped) Conditions is `dead` iff none of its source Conditions
is dead. -/
def Token.validIn (dead : List Nat) (t : Token) : Bool :=
  t.conds.all (fun c => !dead.contains c)

/-- Association-list model of the `HashMap<PathBuf, Condition>` lookup; a
`Condition` is represented by the `Nat` identity it was allocated with. -/
def lookupCache : List (List Char × Nat) → List Char → Option Nat
  | [], _ => none
  | (k, v) :: rest, p => if k = p then some v else lookupCache rest p

/-- Association-list model of `HashMap::remove`. -/
def removeKey : List (List Char × Nat) → List Char → List (List Char × Nat)
  | [], _ => []
  | (k, v) :: rest, p =>
    if k = p then removeKey rest p else (k, v) :: removeKey rest p

/-- `PathBuf::join` for the base directory and a relative path. -/
def joinPath (base rel : List Char) : List Char := base ++ '/' :: rel

/-- The mutable state reachable from one `AssetRoot`:
* `basePath` — the canonicalized directory (`AssetRoot.path`);
* `watching` — whether the `AssetRootWatcher` was created (`watcher.is_some()`);
* `cache` — the watcher's `paths` map from absolute path to its Condition;
* `nextCond` — allocator for fresh Condition identities (`renege::Condition::new`);
* `dead` — Conditions that have been dropped (invalidated). -/
structure RootState where
  basePath : List Char
  watching : Bool
  cache : List (List Char × Nat)
  nextCond : Nat
  dead : List Nat
deriving DecidableEq

/-- Well-formedness of a `RootState`: every Condition identity in the cache
or in the dead set was allocated before `nextCond`. -/
def wfB (s : RootState) : Bool :=
  s.cache.all (fun pc => pc.2 < s.nextCond) && s.dead.all (fun c => c < s.nextCond)

/-- `AssetRoot::open_file`: join the path, try to open the file (an IO error
returns early, touching nothing), then — if a watcher is live — get or
create the Condition cached for the full path, mint its Token and compose it
into the tracker with `tracker.set(tracker.get() & token)`.  The opened
`File` is modelled as `()`. -/
def AssetRoot.openFile (fsOpen : List Char → Except Nat Unit) (s : RootState)
    (tracker : Token) (relPath : List Char) :
    RootState × Token × Except Nat Unit :=
  let full := joinPath s.basePath relPath
  match fsOpen full with
  | Except.error e => (s, tracker, Except.error e)
  | Except.ok _ =>
    if s.watching then
      match lookupCache s.cache full with
      | some cid => (s, tracker.and ⟨[cid]⟩, Except.ok ())
      | none =>
        ({ s with cache := (full, s.nextCond) :: s.cache, nextCond := s.nextCond + 1 },
          tracker.and ⟨[s.nextCond]⟩, Except.ok ())
    else (s, tracker, Except.ok ())

/-- `AssetRoot::track_file`: the same get-or-create and token composition,
with no IO at all. -/
def AssetRoot.trackFile (s : RootState) (tracker : Token) (relPath : List Char) :
    RootState × Token :=
  let full := joinPath s.basePath relPath
  if s.watching then
    match lookupCache s.cache full with
    | some cid => (s, tracker.and ⟨[cid]⟩)
    | none =>
      ({ s with cache := (full, s.nextCond) :: s.cache, nextCond := s.nextCond + 1 },
        tracker.and ⟨[s.nextCond]⟩)
  else (s, tracker)

/-- `AssetRoot::get_children`: list the directory (IO errors return early),
then the same get-or-create and token composition. -/
def AssetRoot.getChildren (fsDir : List Char → Except Nat (List (List Char)))
    (s : RootState) (tracker : Token) (relPath : List Char) :
    RootState × Token × Except Nat (List (List Char)) :=
  let full := joinPath s.basePath relPath
  match fsDir full with
  | Except.error e => (s, tracker, Except.error e)
  | Except.ok cs =>
    if s.watching then
      match lookupCache s.cache full with
      | some cid => (s, tracker.and ⟨[cid]⟩, Except.ok cs)
      | none =>
        ({ s with cache := (full, s.nextCond) :: s.cache, nextCond := s.nextCond + 1 },
          tracker.and ⟨[s.nextCond]⟩, Except.ok cs)
    else (s, tracker, Except.ok cs)

/-- The watcher's event callback body for one path named by a filesystem
event: `paths.remove(&path)`.  Removing the entry drops the map's (only)
owner of that path's `renege::Condition`, which — modelled from the spec —
invalidates every Token ever minted from it, so the dropped Condition joins
`dead`.  Without a watcher there is no callback and events do nothing. -/
def AssetRootWatcher.processEvent (s : RootState) (p : List Char) : RootState :=
  if s.watching then
    match lookupCache s.cache p with
    | some cid => { s with cache := removeKey s.cache p, dead := cid :: s.dead }
    | none => s
  else s

/-- Outcome of running a Rust function that may panic (here via
`Option::unwrap` / `Result::unwrap`). -/
inductive RustResult (α : Type) where
  | ok : α → RustResult α
  | panicked : RustResult α
deriving DecidableEq

/-- `AssetRoot::new`: `path.canonicalize().unwrap()` — a canonicalization
failure panics; otherwise the watcher is attempted (`watcherOk` says whether
`AssetRootWatcher::new` succeeds), and on watcher failure the root is still
built, with watching disabled.  `canon` models `Path::canonicalize`. -/
def AssetRoot.new (canon : List Char → Option (List Char)) (watcherOk : Bool)
    (path : List Char) : RustResult RootState :=
  match canon path with
  | none => RustResult.panicked
  | some cp => RustResult.ok ⟨cp, watcherOk, [], 0, []⟩

/-- `AssetLoadInnerError`: the untagged underlying cause
(`Box<dyn std::error::Error>`); IO errors carry their OS error payload. -/
inductive AssetLoadInnerErr where
  | io : Nat → AssetLoadInnerErr
  | other : Nat → AssetLoadInnerErr
deriving DecidableEq

/-- `AssetLoadError`: pairs the asset path being resolved with the
underlying cause, which the `#[source]` attribute preserves as the chained
cause. -/
structure AssetLoadErr where
  asset : AssetPath
  inner : AssetLoadInnerErr
deriving DecidableEq

/-- `with_asset`: runs the inner fallible computation (here: its result) and
rewraps a failure with the given asset path, keeping the original error as
the chained cause. -/
def withAsset {α : Type} (asset : AssetPath) (inner : Except AssetLoadInnerErr α) :
    Except AssetLoadErr α :=
  match inner with
  | Except.ok v => Except.ok v
  | Except.error e => Except.error ⟨asset, e⟩

/-- `AssetPath::open_file`: calls `AssetRoot::open_file` on the inner path
and wraps an IO failure into an `AssetLoadError` tagged with `self`. -/
def AssetPath.openFile (fsOpen : List Char → Except Nat Unit) (s : RootState)
    (tracker : Token) (p : AssetPath) :
    RootState × Token × Except AssetLoadErr Unit :=
  match AssetRoot.openFile fsOpen s tracker p.inner with
  | (s', t', Except.ok u) => (s', t', Except.ok u)
  | (s', t', Except.error e) => (s', t', Except.error ⟨p, AssetLoadInnerErr.io e⟩)

/-- `AssetPath::get_children`: same wrapping for directory listings. -/
def AssetPath.getChildren (fsDir : List Char → Except Nat (List (List Char)))
    (s : RootState) (tracker : Token) (p : AssetPath) :
    RootState × Token × Except AssetLoadErr (List (List Char)) :=
  match AssetRoot.getChildren fsDir s tracker p.inner with
  | (s', t', Except.ok cs) => (s', t', Except.ok cs)
  | (s', t', Except.error e) => (s', t', Except.error ⟨p, AssetLoadInnerErr.io e⟩)

/-- `AssetPath::load_bytes`: `open_file(tracker)?`, then `with_asset` around
reading the file to the end; `fsRead` models `read_to_end` on the opened
file, keyed by the absolute path, with bytes as `List Nat`. -/
def AssetPath.loadBytes (fsOpen : List Char → Except Nat Unit)
    (fsRead : List Char → Except Nat (List Nat)) (s : RootState)
    (tracker : Token) (p : AssetPath) :
    RootState × Token × Except AssetLoadErr (List Nat) :=
  match AssetPath.openFile fsOpen s tracker p with
  | (s', t', Except.error e) => (s', t', Except.error e)
  | (s', t', Except.ok _) =>
    (s', t',
      withAsset p
        (match fsRead (joinPath s.basePath p.inner) with
          | Except.ok bs => Except.ok bs
          | Except.error e => Except.error (AssetLoadInnerErr.io e)))

/-! ### Helper lemmas about the string-level primitives -/

theorem splitSep_cons (c x : Char) (xs : List Char) :
    splitSep c (x :: xs) =
      match splitSep c xs with
      | [] => [[x]]
      | s :: rest => if x = c then [] :: s :: rest else (x :: s) :: rest := rfl

theorem splitSep_ne_nil (c : Char) (l : List Char) : splitSep c l ≠ [] := by
  cases l with
  | nil => simp [splitSep]
  | cons x xs =>
    simp only [splitSep]
    cases h : splitSep c xs with
    | nil => simp
    | cons s rest =>
      by_cases hx : x = c <;> simp [hx]

theorem rfindIdx_eq_none_iff (c : Char) (l : List Char) :
    rfindIdx c l = none ↔ c ∉ l := by
  induction l with
  | nil => simp [rfindIdx]
  | cons x xs ih =>
    simp only [rfindIdx]
    cases h : rfindIdx c xs with
    | some i =>
      have hmem : c ∈ xs := by
        by_contra hc
        rw [ih.mpr hc] at h
        cases h
      simp [List.mem_cons, hmem]
    | none =>
      have hxs : c ∉ xs := ih.mp h
      by_cases hx : x = c
      · simp [hx]
      · have hcx : c ≠ x := fun hc => hx hc.symm
        simp [hx, hxs, hcx]

theorem rfindIdx_eq_none_of_not_mem {c : Char} {l : List Char} (h : c ∉ l) :
    rfindIdx c l = none := (rfindIdx_eq_none_iff c l).mpr h

theorem rfindIdx_append_last {c : Char} {suf : List Char} (pre : List Char)
    (h : c ∉ suf) : rfindIdx c (pre ++ c :: suf) = some pre.length := by
  induction pre with
  | nil => simp [rfindIdx, rfindIdx_eq_none_of_not_mem h]
  | cons y pre ih => simp [rfindIdx, ih]

theorem rfindIdx_spec {c : Char} {l : List Char} {i : Nat}
    (h : rfindIdx c l = some i) :
    ∃ pre suf, l = pre ++ c :: suf ∧ pre.length = i ∧ c ∉ suf := by
  induction l generalizing i with
  | nil => simp [rfindIdx] at h
  | cons x xs ih =>
    simp only [rfindIdx] at h
    cases hxs : rfindIdx c xs with
    | some j =>
      rw [hxs] at h
      simp only [Option.some.injEq] at h
      obtain ⟨pre, suf, hdec, hlen, hns⟩ := ih hxs
      refine ⟨x :: pre, suf, by simp [hdec], ?_, hns⟩
      simp only [List.length_cons, hlen, h]
    | none =>
      rw [hxs] at h
      by_cases hx : x = c
      · subst hx
        rw [if_pos rfl, Option.some.injEq] at h
        exact ⟨[], xs, rfl, h, (rfindIdx_eq_none_iff x xs).mp hxs⟩
      · simp [hx] at h

theorem splitSep_eq_single {c : Char} {l : List Char} (h : c ∉ l) :
    splitSep c l = [l] := by
  induction l with
  | nil => simp [splitSep]
  | cons x xs ih =>
    have hx : x ≠ c := fun hc => h (by simp [hc])
    have hxs : c ∉ xs := fun hc => h (by simp [hc])
    simp [splitSep, ih hxs, hx]

theorem splitSep_append_sep {c : Char} {suf : List Char} (pre : List Char)
    (h : c ∉ suf) : splitSep c (pre ++ c :: suf) = splitSep c pre ++ [suf] := by
  induction pre with
  | nil => simp [splitSep, splitSep_eq_single h]
  | cons y pre ih =>
    cases hp : splitSep c pre with
    | nil => exact absurd hp (splitSep_ne_nil c pre)
    | cons s rest =>
      rw [List.cons_append, splitSep_cons, ih, hp, List.cons_append]
      by_cases hy : y = c <;> simp [splitSep_cons, hp, hy]

theorem mem_splitSep_not_mem {c : Char} {l : List Char} :
    ∀ s ∈ splitSep c l, c ∉ s := by
  induction l with
  | nil =>
    intro s hs
    simp only [splitSep, List.mem_singleton] at hs
    simp [hs]
  | cons x xs ih =>
    intro s hs
    cases h : splitSep c xs with
    | nil => exact absurd h (splitSep_ne_nil c xs)
    | cons hd tl =>
      simp only [splitSep_cons, h] at hs
      have ihhd : c ∉ hd := ih hd (by simp [h])
      have ihtl : ∀ u ∈ tl, c ∉ u := fun u hu => ih u (by simp [h, hu])
      by_cases hx : x = c
      · rw [if_pos hx] at hs
        rcases List.mem_cons.mp hs with rfl | hs2
        · simp
        · rcases List.mem_cons.mp hs2 with rfl | hs3
          · exact ihhd
          · exact ihtl s hs3
      · rw [if_neg hx] at hs
        rcases List.mem_cons.mp hs with rfl | hs2
        · intro hc
          rcases List.mem_cons.mp hc with hc | hc
          · exact hx hc.symm
          · exact ihhd hc
        · exact ihtl s hs2

theorem lookupCache_removeKey (l : List (List Char × Nat)) (p : List Char) :
    lookupCache (removeKey l p) p = none := by
  induction l with
  | nil => simp [removeKey, lookupCache]
  | cons kv rest ih =>
    obtain ⟨k, v⟩ := kv
    by_cases hk : k = p <;> simp [removeKey, lookupCache, hk, ih]

theorem lookupCache_mem {l : List (List Char × Nat)} {p : List Char} {v : Nat}
    (h : lookupCache l p = some v) : (p, v) ∈ l := by
  induction l with
  | nil => simp [lookupCache] at h
  | cons kv rest ih =>
    obtain ⟨k, w⟩ := kv
    by_cases hk : k = p
    · simp [lookupCache, hk] at h
      simp [hk, h]
    · simp only [lookupCache, if_neg hk] at h
      exact List.mem_cons_of_mem _ (ih h)

theorem drop_length_succ_append (pre suf : List Char) (c : Char) :
    (pre ++ c :: suf).drop (pre.length + 1) = suf := by
  induction pre with
  | nil => simp
  | cons x xs ih => simp [ih]

/-! ### Claim C4: `extension` scans the whole path for the last dot -/

/-- C4: for every path value, `extension()` returns the substring strictly
after the last `.` occurring anywhere in the whole inner path string, and
`None` when the string contains no `.`; in particular `"a.b/c"`, whose only
dot lies in a parent segment, yields `Some "b/c")` with the separator
included in the result. -/
theorem extension_after_last_dot (p : AssetInnerPath) :
    (AssetInnerPath.extension p = none ↔ '.' ∉ p) ∧
    (∀ e : List Char, AssetInnerPath.extension p = some e ↔
      ∃ pre, p = pre ++ '.' :: e ∧ '.' ∉ e) ∧
    AssetInnerPath.extension ['a', '.', 'b', '/', 'c'] = some ['b', '/', 'c'] := by
  refine ⟨?_, ?_, by decide⟩
  · cases h : rfindIdx '.' p with
    | some i =>
      have hmem : '.' ∈ p := by
        by_contra hc
        rw [rfindIdx_eq_none_of_not_mem hc] at h
        cases h
      simp [AssetInnerPath.extension, h, hmem]
    | none =>
      simp [AssetInnerPath.extension, h, (rfindIdx_eq_none_iff _ _).mp h]
  · intro e
    constructor
    · intro h
      unfold AssetInnerPath.extension at h
      cases hf : rfindIdx '.' p with
      | none => rw [hf] at h; cases h
      | some i =>
        rw [hf] at h
        simp only [Option.some.injEq] at h
        obtain ⟨pre, suf, hdec, hlen, hns⟩ := rfindIdx_spec hf
        have hdrop : p.drop (i + 1) = suf := by
          rw [hdec, ← hlen]
          exact drop_length_succ_append pre suf '.'
        rw [hdrop] at h
        subst h
        exact ⟨pre, hdec, hns⟩
    · rintro ⟨pre, rfl, hns⟩
      unfold AssetInnerPath.extension
      rw [rfindIdx_append_last pre hns]
      simp [drop_length_succ_append]

/-- Witness for C4 at concrete inputs: a dot-free path has no extension, and
a path with a dot decomposes at the last dot. -/
theorem extension_after_last_dot_witness :
    AssetInnerPath.extension ['a', 'b'] = none ∧
    AssetInnerPath.extension ['a', '.', 'b'] = some ['b'] := by
  constructor
  · exact (extension_after_last_dot ['a', 'b']).1.mpr (by decide)
  · exact ((extension_after_last_dot ['a', '.', 'b']).2.1 ['b']).mpr ⟨['a'], rfl, by decide⟩

/-! ### Claim C5: path algebra laws -/

theorem inner_rel_dot (p : AssetInnerPath) : AssetInnerPath.relative p ['.'] = p := by
  have hs : splitSep '/' ['.'] = [['.']] := by decide
  simp [AssetInnerPath.relative, hs, relStep]

theorem relStep_append_seg {p part : AssetInnerPath} (hp : p ≠ [])
    (h1 : part ≠ ['.']) (h2 : part ≠ ['.', '.']) (h3 : part ≠ ['~']) :
    relStep p part = p ++ '/' :: part := by
  simp [relStep, h1, h2, h3, hp]

theorem truncLastSep_append_seg (p : AssetInnerPath) {part : AssetInnerPath}
    (hsep : '/' ∉ part) : truncLastSep (p ++ '/' :: part) = p := by
  unfold truncLastSep
  rw [rfindIdx_append_last p hsep]
  exact List.take_left p _

theorem inner_rel_a_dotdot (p : AssetInnerPath) :
    AssetInnerPath.relative (AssetInnerPath.relative p ['a']) ['.', '.'] = p := by
  have h1 : splitSep '/' ['a'] = [['a']] := by decide
  have h2 : splitSep '/' ['.', '.'] = [['.', '.']] := by decide
  simp only [AssetInnerPath.relative, h1, h2, List.foldl_cons, List.foldl_nil]
  by_cases hp : p = []
  · subst hp; decide
  · rw [relStep_append_seg hp (by decide) (by decide) (by decide)]
    have hstep : relStep (p ++ '/' :: ['a']) ['.', '.'] = truncLastSep (p ++ '/' :: ['a']) := by
      simp [relStep]
    rw [hstep, truncLastSep_append_seg p (by decide)]

theorem inner_rel_home (p : AssetInnerPath) :
    AssetInnerPath.relative p ['~', '/', 'x'] =
      AssetInnerPath.relative AssetInnerPath.root ['x'] := by
  have hs : splitSep '/' ['~', '/', 'x'] = [['~'], ['x']] := by decide
  have hx : splitSep '/' ['x'] = [['x']] := by decide
  simp [AssetInnerPath.relative, hs, hx, relStep, AssetInnerPath.root]

theorem inner_rel_x_parent {p : AssetInnerPath} (hp : p ≠ []) :
    AssetInnerPath.parent (AssetInnerPath.relative p ['x']) = some p := by
  have h1 : splitSep '/' ['x'] = [['x']] := by decide
  simp only [AssetInnerPath.relative, h1, List.foldl_cons, List.foldl_nil]
  rw [relStep_append_seg hp (by decide) (by decide) (by decide)]
  have hne : p ++ '/' :: ['x'] ≠ [] := by simp
  simp only [AssetInnerPath.parent, if_neg hne, Option.some.injEq]
  exact truncLastSep_append_seg p (by decide)

/-- C5: the path algebra laws, at the `AssetPath` level (the root reference
is carried along unchanged): `P.relative "." = P`;
`P.relative("a").relative("..") = P`;
`P.relative("~/x") = root().relative("x")` (same root);
`root().parent() = None`; and for non-root `P`,
`P.relative("x").parent() = Some P`. -/
theorem path_algebra_laws (P : AssetPath) :
    AssetPath.relative P ['.'] = P ∧
    AssetPath.relative (AssetPath.relative P ['a']) ['.', '.'] = P ∧
    AssetPath.relative P ['~', '/', 'x'] =
      AssetPath.relative ⟨P.rootId, AssetInnerPath.root⟩ ['x'] ∧
    AssetPath.parent ⟨P.rootId, AssetInnerPath.root⟩ = none ∧
    (P.inner ≠ AssetInnerPath.root →
      AssetPath.parent (AssetPath.relative P ['x']) = some P) := by
  refine ⟨?_, ?_, ?_, ?_, ?_⟩
  · simp [AssetPath.relative, inner_rel_dot]
  · simp [AssetPath.relative, inner_rel_a_dotdot]
  · simp [AssetPath.relative, inner_rel_home]
  · simp [AssetPath.parent, AssetInnerPath.parent, AssetInnerPath.root]
  · intro hp
    have hp' : P.inner ≠ [] := hp
    simp [AssetPath.relative, AssetPath.parent, inner_rel_x_parent hp']

/-- Witness for C5 at a concrete non-root path. -/
theorem path_algebra_laws_witness :
    AssetPath.parent (AssetPath.relative ⟨0, ['a']⟩ ['x']) = some ⟨0, ['a']⟩ :=
  (path_algebra_laws ⟨0, ['a']⟩).2.2.2.2 (by decide)

/-! ### Claim C6: normalization of reachable inner paths -/

/-- The normalization property the spec claims for inner strings: the string
is empty (the root), or its `/`-split parts are all non-empty — equivalently
it neither starts nor ends with `/` and `/` only separates non-empty
segments. -/
def normB (p : List Char) : Bool :=
  p.isEmpty || (splitSep '/' p).all (fun s => !s.isEmpty)

/-- A spec string whose `/`-split parts are all non-empty. -/
def goodSpec (spec : List Char) : Bool :=
  (splitSep '/' spec).all (fun s => !s.isEmpty)

theorem normB_iff (p : List Char) :
    normB p = true ↔ (p = [] ∨ ∀ s ∈ splitSep '/' p, s ≠ []) := by
  simp [normB, List.all_eq_true, List.isEmpty_iff]

theorem truncLastSep_norm {res : List Char} (h : normB res = true) :
    normB (truncLastSep res) = true := by
  unfold truncLastSep
  cases hf : rfindIdx '/' res with
  | none => simp [normB]
  | some i =>
    obtain ⟨pre, suf, hdec, hlen, hns⟩ := rfindIdx_spec hf
    subst hdec
    rw [← hlen]
    simp only [List.take_left]
    rcases (normB_iff _).mp h with hnil | hall
    · exact absurd hnil (by simp)
    · rw [normB_iff]
      right
      intro s hs
      exact hall s (by rw [splitSep_append_sep pre hns]; exact List.mem_append_left _ hs)

theorem relStep_norm {res part : List Char} (h : normB res = true)
    (hne : part ≠ []) (hsep : '/' ∉ part) : normB (relStep res part) = true := by
  by_cases h1 : part = ['.']
  · simpa [relStep, h1] using h
  by_cases h2 : part = ['.', '.']
  · simpa [relStep, h1, h2] using truncLastSep_norm h
  by_cases h3 : part = ['~']
  · simp [relStep, h1, h2, h3, normB]
  by_cases h4 : res = []
  · rw [relStep, if_neg h1, if_neg h2, if_neg h3, if_pos h4, normB_iff]
    right
    rw [splitSep_eq_single hsep]
    intro s hs
    simp only [List.mem_singleton] at hs
    exact hs ▸ hne
  · rw [relStep_append_seg h4 h1 h2 h3, normB_iff]
    right
    rw [splitSep_append_sep res hsep]
    intro s hs
    rcases List.mem_append.mp hs with hs | hs
    · rcases (normB_iff _).mp h with hnil | hall
      · exact absurd hnil h4
      · exact hall s hs
    · simp only [List.mem_singleton] at hs
      exact hs ▸ hne

theorem foldl_relStep_norm (parts : List (List Char)) (res : List Char)
    (h : normB res = true) (hp : ∀ part ∈ parts, part ≠ [] ∧ '/' ∉ part) :
    normB (parts.foldl relStep res) = true := by
  induction parts generalizing res with
  | nil => simpa using h
  | cons a parts ih =>
    simp only [List.foldl_cons]
    exact ih _ (relStep_norm h (hp a (by simp)).1 (hp a (by simp)).2)
      (fun part hpart => hp part (by simp [hpart]))

theorem relative_norm {p spec : List Char} (h : normB p = true)
    (hspec : goodSpec spec = true) :
    normB (AssetInnerPath.relative p spec) = true := by
  refine foldl_relStep_norm _ p h (fun part hpart => ⟨?_, mem_splitSep_not_mem part hpart⟩)
  have := (List.all_eq_true.mp hspec) part hpart
  simpa [List.isEmpty_iff] using this

theorem parent_norm {p q : List Char} (h : normB p = true)
    (hq : AssetInnerPath.parent p = some q) : normB q = true := by
  unfold AssetInnerPath.parent at hq
  by_cases hnil : p = []
  · simp [hnil] at hq
  · simp only [if_neg hnil, Option.some.injEq] at hq
    exact hq ▸ truncLastSep_norm h

/-- Inner paths reachable from the root by `relative` calls whose specs have
no empty `/`-separated parts, and by `parent` calls. -/
inductive ReachableGood : AssetInnerPath → Prop where
  | root : ReachableGood AssetInnerPath.root
  | rel (p spec) : ReachableGood p → goodSpec spec = true →
      ReachableGood (AssetInnerPath.relative p spec)
  | up (p q) : ReachableGood p → AssetInnerPath.parent p = some q → ReachableGood q

/-- Inner paths reachable from the root by arbitrary `relative` and `parent`
calls, exactly as the claim quantifies them. -/
inductive ReachableAny : AssetInnerPath → Prop where
  | root : ReachableAny AssetInnerPath.root
  | rel (p spec) : ReachableAny p → ReachableAny (AssetInnerPath.relative p spec)
  | up (p q) : ReachableAny p → AssetInnerPath.parent p = some q → ReachableAny q

/-- C6 counterexample: with arbitrary spec strings the claim is false —
`root().relative("a/")` is reachable, is not the root, and its inner string
`"a/"` ends with `'/'` (its split even has an empty trailing segment). -/
theorem reachable_trailing_sep :
    ReachableAny ['a', '/'] ∧ ['a', '/'] ≠ AssetInnerPath.root ∧
    List.getLast? ['a', '/'] = some '/' ∧ normB ['a', '/'] = false := by
  refine ⟨?_, by decide, by decide, by decide⟩
  have h : AssetInnerPath.relative AssetInnerPath.root ['a', '/'] = ['a', '/'] := by decide
  exact h ▸ ReachableAny.rel AssetInnerPath.root ['a', '/'] ReachableAny.root

/-- C6 (amended): for every path reachable from `root()` by `relative(spec)`
calls whose spec's `/`-separated parts are all non-empty and by `parent()`
calls, the inner string is either empty (the root) or neither starts nor
ends with `/` and contains `/` only as a separator between non-empty
segments. -/
theorem reachable_normalized (p : AssetInnerPath) (h : ReachableGood p) :
    normB p = true := by
  induction h with
  | root => decide
  | rel p spec hr hg ih => exact relative_norm ih hg
  | up p q hr hq ih => exact parent_norm ih hq

/-- Witness for the amended C6 at a concrete reachable path. -/
theorem reachable_normalized_witness : normB ['a'] = true := by
  have h : AssetInnerPath.relative AssetInnerPath.root ['a'] = ['a'] := by decide
  exact reachable_normalized ['a']
    (h ▸ ReachableGood.rel AssetInnerPath.root ['a'] ReachableGood.root (by decide))

/-! ### Claims C1, C2, C7, C10: the Condition cache and token composition -/

theorem validIn_false_of_mem {cid : Nat} {dead : List Nat} {tok : Token}
    (hc : cid ∈ tok.conds) (hd : cid ∈ dead) : Token.validIn dead tok = false := by
  unfold Token.validIn
  cases hall : tok.conds.all (fun c => !dead.contains c) with
  | false => rfl
  | true =>
    have := List.all_eq_true.mp hall cid hc
    simp [hd] at this

/-- C1: with a live watcher, a successful `open_file` call gets the cached
Condition for the resolved absolute path (creating and caching a new
Condition if none is present), composes that Condition's Token into the
tracker by logical AND with the tracker's current token, and returns the
open handle. -/
theorem open_file_tracks (fsOpen : List Char → Except Nat Unit) (s : RootState)
    (t : Token) (rel : List Char) (hw : s.watching = true)
    (hfs : fsOpen (joinPath s.basePath rel) = Except.ok ()) :
    ∃ cid,
      (AssetRoot.openFile fsOpen s t rel).2.2 = Except.ok () ∧
      (AssetRoot.openFile fsOpen s t rel).2.1 = t.and ⟨[cid]⟩ ∧
      lookupCache (AssetRoot.openFile fsOpen s t rel).1.cache
        (joinPath s.basePath rel) = some cid ∧
      (lookupCache s.cache (joinPath s.basePath rel) = some cid ∨
        (lookupCache s.cache (joinPath s.basePath rel) = none ∧ cid = s.nextCond ∧
          (AssetRoot.openFile fsOpen s t rel).1.cache =
            (joinPath s.basePath rel, cid) :: s.cache)) := by
  cases hc : lookupCache s.cache (joinPath s.basePath rel) with
  | some cid =>
    refine ⟨cid, ?_⟩
    simp [AssetRoot.openFile, hfs, hw, hc]
  | none =>
    refine ⟨s.nextCond, ?_⟩
    simp [AssetRoot.openFile, hfs, hw, hc, lookupCache]

/-- Witness for C1: a fresh root opens a file, caches Condition `0` for the
joined path, and composes its token into the tracker. -/
theorem open_file_tracks_witness :
    ∃ cid,
      (AssetRoot.openFile (fun _ => Except.ok ()) ⟨['b'], true, [], 0, []⟩
        Token.always ['x']).2.2 = Except.ok () ∧
      (AssetRoot.openFile (fun _ => Except.ok ()) ⟨['b'], true, [], 0, []⟩
        Token.always ['x']).2.1 = Token.and Token.always ⟨[cid]⟩ ∧
      lookupCache (AssetRoot.openFile (fun _ => Except.ok ()) ⟨['b'], true, [], 0, []⟩
        Token.always ['x']).1.cache (joinPath ['b'] ['x']) = some cid ∧
      (lookupCache [] (joinPath ['b'] ['x']) = some cid ∨
        (lookupCache [] (joinPath ['b'] ['x']) = none ∧ cid = 0 ∧
          (AssetRoot.openFile (fun _ => Except.ok ()) ⟨['b'], true, [], 0, []⟩
            Token.always ['x']).1.cache = (joinPath ['b'] ['x'], cid) :: [])) :=
  open_file_tracks (fun _ => Except.ok ()) ⟨['b'], true, [], 0, []⟩ Token.always ['x']
    rfl rfl

/-- C2: when the watcher processes a filesystem event naming path `p`, the
Condition cached for `p` is invalidated — every Token minted from it reports
invalid from then on (in any state whose dead set has only grown) — and the
cache entry is removed; a tracker that had composed `p`'s Token reports
invalid, and the next access to `p` mints a fresh, valid Condition/Token
pair. -/
theorem event_invalidates (s : RootState) (p rel : List Char) (cid : Nat)
    (t t2 : Token) (hw : s.watching = true)
    (hc : lookupCache s.cache p = some cid) (hwf : wfB s = true)
    (hrel : joinPath s.basePath rel = p) :
    (∀ tok : Token, cid ∈ tok.conds → ∀ dead2 : List Nat,
      (AssetRootWatcher.processEvent s p).dead ⊆ dead2 →
        Token.validIn dead2 tok = false) ∧
    lookupCache (AssetRootWatcher.processEvent s p).cache p = none ∧
    (cid ∈ t.conds →
      Token.validIn (AssetRootWatcher.processEvent s p).dead t = false) ∧
    (AssetRoot.trackFile (AssetRootWatcher.processEvent s p) t2 rel).2 =
      t2.and ⟨[s.nextCond]⟩ ∧
    s.nextCond ≠ cid ∧
    Token.validIn
      (AssetRoot.trackFile (AssetRootWatcher.processEvent s p) t2 rel).1.dead
      ⟨[s.nextCond]⟩ = true := by
  have hs' : AssetRootWatcher.processEvent s p =
      ⟨s.basePath, s.watching, removeKey s.cache p, s.nextCond, cid :: s.dead⟩ := by
    simp [AssetRootWatcher.processEvent, hw, hc]
  have hwf1 := (Bool.and_eq_true_iff.mp hwf).1
  have hwf2 := (Bool.and_eq_true_iff.mp hwf).2
  have hlt : cid < s.nextCond := by
    have := List.all_eq_true.mp hwf1 (p, cid) (lookupCache_mem hc)
    simpa using this
  have hnd : s.nextCond ∉ s.dead := by
    intro hmm
    have := List.all_eq_true.mp hwf2 s.nextCond hmm
    simp at this
  refine ⟨?_, ?_, ?_, ?_, ?_, ?_⟩
  · intro tok htok dead2 hsub
    refine validIn_false_of_mem htok (hsub ?_)
    rw [hs']
    simp
  · rw [hs']
    exact lookupCache_removeKey s.cache p
  · intro ht
    refine validIn_false_of_mem ht ?_
    rw [hs']
    simp
  · rw [hs']
    simp [AssetRoot.trackFile, hw, hrel, lookupCache_removeKey]
  · omega
  · rw [hs']
    simp [AssetRoot.trackFile, hw, hrel, lookupCache_removeKey, Token.validIn,
      hnd, Nat.ne_of_gt hlt]

/-- Witness for C2: one cached path, one event, concrete state. -/
theorem event_invalidates_witness :
    (∀ tok : Token, 0 ∈ tok.conds → ∀ dead2 : List Nat,
      (AssetRootWatcher.processEvent ⟨['b'], true, [(['b', '/', 'x'], 0)], 1, []⟩
        ['b', '/', 'x']).dead ⊆ dead2 → Token.validIn dead2 tok = false) ∧
    lookupCache (AssetRootWatcher.processEvent ⟨['b'], true, [(['b', '/', 'x'], 0)], 1, []⟩
      ['b', '/', 'x']).cache ['b', '/', 'x'] = none ∧
    ((0 : Nat) ∈ Token.conds ⟨[0]⟩ →
      Token.validIn (AssetRootWatcher.processEvent ⟨['b'], true, [(['b', '/', 'x'], 0)], 1, []⟩
        ['b', '/', 'x']).dead ⟨[0]⟩ = false) ∧
    (AssetRoot.trackFile (AssetRootWatcher.processEvent ⟨['b'], true, [(['b', '/', 'x'], 0)], 1, []⟩
      ['b', '/', 'x']) Token.always ['x']).2 = Token.and Token.always ⟨[1]⟩ ∧
    (1 : Nat) ≠ 0 ∧
    Token.validIn (AssetRoot.trackFile
      (AssetRootWatcher.processEvent ⟨['b'], true, [(['b', '/', 'x'], 0)], 1, []⟩
        ['b', '/', 'x']) Token.always ['x']).1.dead ⟨[1]⟩ = true :=
  event_invalidates ⟨['b'], true, [(['b', '/', 'x'], 0)], 1, []⟩ ['b', '/', 'x'] ['x']
    0 ⟨[0]⟩ Token.always rfl (by decide) (by decide) (by decide)

/-- C3 (code-bug evidence): `AssetRoot::new` runs
`path.canonicalize().unwrap()`, so a directory that cannot be canonicalized
(for instance, one that does not exist) panics — a process abort, not the
reportable caller-visible error the claim requires. -/
theorem root_new_panics_on_bad_dir :
    AssetRoot.new (fun _ => none) true ['a'] = RustResult.panicked := rfl

/-- C7: with watching disabled, `open_file`, `get_children`, and
`track_file` succeed with the same IO results as in watched mode on the same
state, and the token composed into the tracker is the permanently-valid
Token — equivalently (last conjunct) the tracker is left unchanged. -/
theorem unwatched_same_results (fsOpen : List Char → Except Nat Unit)
    (fsDir : List Char → Except Nat (List (List Char)))
    (base : List Char) (cache : List (List Char × Nat)) (nc : Nat)
    (dead : List Nat) (t : Token) (rel : List Char) :
    AssetRoot.openFile fsOpen ⟨base, false, cache, nc, dead⟩ t rel =
      (⟨base, false, cache, nc, dead⟩, t,
        (AssetRoot.openFile fsOpen ⟨base, true, cache, nc, dead⟩ t rel).2.2) ∧
    AssetRoot.getChildren fsDir ⟨base, false, cache, nc, dead⟩ t rel =
      (⟨base, false, cache, nc, dead⟩, t,
        (AssetRoot.getChildren fsDir ⟨base, true, cache, nc, dead⟩ t rel).2.2) ∧
    AssetRoot.trackFile ⟨base, false, cache, nc, dead⟩ t rel =
      (⟨base, false, cache, nc, dead⟩, t) ∧
    Token.and t Token.always = t := by
  refine ⟨?_, ?_, ?_, ?_⟩
  · cases hf : fsOpen (joinPath base rel) with
    | error e => simp [AssetRoot.openFile, hf]
    | ok u =>
      cases hl : lookupCache cache (joinPath base rel) <;>
        simp [AssetRoot.openFile, hf, hl]
  · cases hf : fsDir (joinPath base rel) with
    | error e => simp [AssetRoot.getChildren, hf]
    | ok cs =>
      cases hl : lookupCache cache (joinPath base rel) <;>
        simp [AssetRoot.getChildren, hf, hl]
  · simp [AssetRoot.trackFile]
  · cases t
    simp [Token.and, Token.always]

/-- C10: when `open_file` fails because the file cannot be opened, the
tracker and the whole root state — in particular the path-to-Condition
cache — are left unchanged, and the IO error is surfaced. -/
theorem open_file_failure_no_effect (fsOpen : List Char → Except Nat Unit)
    (s : RootState) (t : Token) (rel : List Char) (e : Nat)
    (hfs : fsOpen (joinPath s.basePath rel) = Except.error e) :
    AssetRoot.openFile fsOpen s t rel = (s, t, Except.error e) := by
  simp [AssetRoot.openFile, hfs]

/-- Witness for C10: a concrete failing open leaves state and tracker as
they were. -/
theorem open_file_failure_no_effect_witness :
    AssetRoot.openFile (fun _ => Except.error 2) ⟨['b'], true, [], 0, []⟩
      Token.always ['x'] = (⟨['b'], true, [], 0, []⟩, Token.always, Except.error 2) :=
  open_file_failure_no_effect (fun _ => Except.error 2) ⟨['b'], true, [], 0, []⟩
    Token.always ['x'] 2 rfl

/-! ### Claim C8: path equality is root identity plus inner string -/

/-- C8: two `AssetPath` values are equal under the `PartialEq` impl iff they
reference the same Root instance (by identity) and have equal inner strings;
two `new_root_fs` allocations — even on the same directory contents — give
distinct root identities, so paths with identical inner text but distinct
roots are unequal; and equal paths hash identically. -/
theorem path_identity_eq (a b : AssetPath) (r1 r2 : Nat) (i : AssetInnerPath)
    (store : List (List Char)) (dir : List Char) :
    (AssetPath.eqRust a b = true ↔ a.rootId = b.rootId ∧ a.inner = b.inner) ∧
    (r1 ≠ r2 → AssetPath.eqRust ⟨r1, i⟩ ⟨r2, i⟩ = false) ∧
    (AssetPath.eqRust a b = true → AssetPath.hashRust a = AssetPath.hashRust b) ∧
    (newRootFs (newRootFs store dir).1 dir).2.rootId ≠ (newRootFs store dir).2.rootId := by
  refine ⟨?_, ?_, ?_, ?_⟩
  · simp [AssetPath.eqRust]
  · intro h
    simp [AssetPath.eqRust, h]
  · intro h
    have h' : a.rootId = b.rootId ∧ a.inner = b.inner := by
      simpa [AssetPath.eqRust] using h
    simp [AssetPath.hashRust, h'.1, h'.2]
  · simp [newRootFs]

/-- Witness for C8: paths with identical inner text on two distinct root
instances are unequal. -/
theorem path_identity_eq_witness :
    AssetPath.eqRust ⟨0, ['a']⟩ ⟨1, ['a']⟩ = false :=
  (path_identity_eq ⟨0, ['a']⟩ ⟨1, ['a']⟩ 0 1 ['a'] [] []).2.1 (by decide)

/-! ### Claim C9: error values pair the asset path with the preserved cause -/

theorem root_openFile_io (fsOpen : List Char → Except Nat Unit) (s : RootState)
    (t : Token) (rel : List Char) :
    (AssetRoot.openFile fsOpen s t rel).2.2 = fsOpen (joinPath s.basePath rel) := by
  cases hf : fsOpen (joinPath s.basePath rel) with
  | error e => simp [AssetRoot.openFile, hf]
  | ok u =>
    cases hw : s.watching <;>
      cases hl : lookupCache s.cache (joinPath s.basePath rel) <;>
        simp [AssetRoot.openFile, hf, hw, hl]

theorem root_getChildren_io (fsDir : List Char → Except Nat (List (List Char)))
    (s : RootState) (t : Token) (rel : List Char) :
    (AssetRoot.getChildren fsDir s t rel).2.2 = fsDir (joinPath s.basePath rel) := by
  cases hf : fsDir (joinPath s.basePath rel) with
  | error e => simp [AssetRoot.getChildren, hf]
  | ok cs =>
    cases hw : s.watching <;>
      cases hl : lookupCache s.cache (joinPath s.basePath rel) <;>
        simp [AssetRoot.getChildren, hf, hw, hl]

theorem pathOpenFile_error_shape (fsOpen : List Char → Except Nat Unit)
    (s : RootState) (t : Token) (p : AssetPath) (r : AssetLoadErr)
    (hr : (AssetPath.openFile fsOpen s t p).2.2 = Except.error r) :
    r.asset = p ∧ ∃ e, fsOpen (joinPath s.basePath p.inner) = Except.error e ∧
      r.inner = AssetLoadInnerErr.io e := by
  have hio := root_openFile_io fsOpen s t p.inner
  rcases hro : AssetRoot.openFile fsOpen s t p.inner with ⟨s1, t1, r1⟩
  rw [hro] at hio
  simp only [AssetPath.openFile, hro] at hr
  cases r1 with
  | ok u => cases hr
  | error e =>
    simp only [Except.error.injEq] at hr
    subst hr
    exact ⟨rfl, e, by simpa using hio.symm, rfl⟩

theorem pathGetChildren_error_shape (fsDir : List Char → Except Nat (List (List Char)))
    (s : RootState) (t : Token) (p : AssetPath) (r : AssetLoadErr)
    (hr : (AssetPath.getChildren fsDir s t p).2.2 = Except.error r) :
    r.asset = p ∧ ∃ e, fsDir (joinPath s.basePath p.inner) = Except.error e ∧
      r.inner = AssetLoadInnerErr.io e := by
  have hio := root_getChildren_io fsDir s t p.inner
  rcases hro : AssetRoot.getChildren fsDir s t p.inner with ⟨s1, t1, r1⟩
  rw [hro] at hio
  simp only [AssetPath.getChildren, hro] at hr
  cases r1 with
  | ok cs => cases hr
  | error e =>
    simp only [Except.error.injEq] at hr
    subst hr
    exact ⟨rfl, e, by simpa using hio.symm, rfl⟩

theorem loadBytes_error_shape (fsOpen : List Char → Except Nat Unit)
    (fsRead : List Char → Except Nat (List Nat)) (s : RootState) (t : Token)
    (p : AssetPath) (r : AssetLoadErr)
    (hr : (AssetPath.loadBytes fsOpen fsRead s t p).2.2 = Except.error r) :
    r.asset = p ∧ ∃ e, r.inner = AssetLoadInnerErr.io e ∧
      (fsOpen (joinPath s.basePath p.inner) = Except.error e ∨
        fsRead (joinPath s.basePath p.inner) = Except.error e) := by
  rcases hpo : AssetPath.openFile fsOpen s t p with ⟨s1, t1, r1⟩
  simp only [AssetPath.loadBytes, hpo] at hr
  cases r1 with
  | error eo =>
    simp only [Except.error.injEq] at hr
    subst hr
    obtain ⟨hasset, e, hfs, hinner⟩ :=
      pathOpenFile_error_shape fsOpen s t p eo (by rw [hpo])
    exact ⟨hasset, e, hinner, Or.inl hfs⟩
  | ok bs =>
    cases hfr : fsRead (joinPath s.basePath p.inner) with
    | ok cs => rw [hfr] at hr; cases hr
    | error e =>
      rw [hfr] at hr
      simp only [withAsset, Except.error.injEq] at hr
      subst hr
      exact ⟨rfl, e, rfl, Or.inr rfl⟩

/-- C9: every error surfaced by `open_file`, `get_children`, `load_bytes`,
or the `with_asset` wrapping helper is an `AssetLoadError` pairing the
asset's Path with the underlying cause preserved as the chained inner cause;
`with_asset` returns the inner computation's result unchanged on success and
on failure rewraps the inner error with the given Path. -/
theorem errors_tagged_with_asset (p : AssetPath)
    (fsOpen : List Char → Except Nat Unit)
    (fsRead : List Char → Except Nat (List Nat))
    (fsDir : List Char → Except Nat (List (List Char)))
    (s : RootState) (t : Token) :
    (∀ v : Nat, withAsset p (Except.ok v) = Except.ok v) ∧
    (∀ e : AssetLoadInnerErr,
      withAsset p (Except.error e : Except AssetLoadInnerErr Nat) =
        Except.error ⟨p, e⟩) ∧
    (∀ r : AssetLoadErr, (AssetPath.openFile fsOpen s t p).2.2 = Except.error r →
      r.asset = p ∧ ∃ e, fsOpen (joinPath s.basePath p.inner) = Except.error e ∧
        r.inner = AssetLoadInnerErr.io e) ∧
    (∀ r : AssetLoadErr, (AssetPath.getChildren fsDir s t p).2.2 = Except.error r →
      r.asset = p ∧ ∃ e, fsDir (joinPath s.basePath p.inner) = Except.error e ∧
        r.inner = AssetLoadInnerErr.io e) ∧
    (∀ r : AssetLoadErr, (AssetPath.loadBytes fsOpen fsRead s t p).2.2 = Except.error r →
      r.asset = p ∧ ∃ e, r.inner = AssetLoadInnerErr.io e ∧
        (fsOpen (joinPath s.basePath p.inner) = Except.error e ∨
          fsRead (joinPath s.basePath p.inner) = Except.error e)) := by
  refine ⟨fun v => rfl, fun e => rfl, ?_, ?_, ?_⟩
  · exact fun r hr => pathOpenFile_error_shape fsOpen s t p r hr
  · exact fun r hr => pathGetChildren_error_shape fsDir s t p r hr
  · exact fun r hr => loadBytes_error_shape fsOpen fsRead s t p r hr

/-- Witness for C9: `with_asset` rewraps a concrete failure with the path,
and a concrete failing `open_file` surfaces exactly that shape. -/
theorem errors_tagged_with_asset_witness :
    withAsset ⟨0, ['x']⟩ (Except.error (AssetLoadInnerErr.io 5) :
        Except AssetLoadInnerErr Nat) =
      Except.error ⟨⟨0, ['x']⟩, AssetLoadInnerErr.io 5⟩ ∧
    (AssetLoadErr.asset ⟨⟨0, ['x']⟩, AssetLoadInnerErr.io 7⟩ = ⟨0, ['x']⟩ ∧
      ∃ e, (fun _ : List Char => (Except.error 7 : Except Nat Unit))
          (joinPath [] (AssetPath.inner ⟨0, ['x']⟩)) = Except.error e ∧
        AssetLoadErr.inner ⟨⟨0, ['x']⟩, AssetLoadInnerErr.io 7⟩ =
          AssetLoadInnerErr.io e) :=
  ⟨(errors_tagged_with_asset ⟨0, ['x']⟩ (fun _ => Except.error 7)
      (fun _ => Except.ok []) (fun _ => Except.ok []) ⟨[], false, [], 0, []⟩
      Token.always).2.1 (AssetLoadInnerErr.io 5),
    (errors_tagged_with_asset ⟨0, ['x']⟩ (fun _ => Except.error 7)
      (fun _ => Except.ok []) (fun _ => Except.ok []) ⟨[], false, [], 0, []⟩
      Token.always).2.2.1 ⟨⟨0, ['x']⟩, AssetLoadInnerErr.io 7⟩ rfl⟩

end Assetman
